import Mathlib

/-!
Verification of the galo-parse-meta metadata-to-Markdown converter.

The Rust sources (src/space.rs, src/paragraph.rs, src/author.rs,
src/abstract.rs, src/metadata.rs) are shallowly embedded over byte lists
(`List Nat`, one element per input byte).  A nom `IResult<&[u8], T>` is
embedded as `Option (List Nat × T)`: `some (remainder, value)` for `Ok`
and `none` for any parse error (the sources only ever produce recoverable
`Err::Error`/`Err::Incomplete` values, never `Err::Failure`, so one error
case is faithful).  Writers (`write_to`, `wtite_to`) are embedded as pure
functions returning the bytes written to the sink together with
`Option RenderErr`: the byte list holds exactly the bytes the `Write`
sink received before the function returned, so partial output before an
error is preserved, and a Rust panic is modelled as the distinguished
error `RenderErr.indexOutOfBounds`.  `String` values coming from the
bibliography are modelled as their byte lists; `str::trim` and
`str::to_uppercase` are modelled on ASCII (all inputs considered here are
ASCII).  The chrono timestamp is an external input per the design, so the
already-formatted date string is passed in as a byte list.
-/

/-- Byte list of an ASCII string (codepoint = byte for ASCII). -/
def bytes (s : String) : List Nat := s.data.map Char.toNat

/-- Whitespace class of src/space.rs: space, tab, CR, LF. -/
def isWsB (b : Nat) : Bool := b == 32 || b == 9 || b == 13 || b == 10

/-! ### Byte constants (ASCII codes of the literals appearing in the sources) -/

/-- `"\par"` -/
def parB : List Nat := [92, 112, 97, 114]
/-- `"given"` -/
def givenB : List Nat := [103, 105, 118, 101, 110]
/-- `"family"` -/
def familyB : List Nat := [102, 97, 109, 105, 108, 121]
/-- `"textit"` -/
def textitB : List Nat := [116, 101, 120, 116, 105, 116]
/-- `"citeyear"` -/
def citeyearB : List Nat := [99, 105, 116, 101, 121, 101, 97, 114]
/-- `"cite"` -/
def citeB : List Nat := [99, 105, 116, 101]
/-- `"year"` -/
def yearB : List Nat := [121, 101, 97, 114]
/-- `"author"` -/
def authorB : List Nat := [97, 117, 116, 104, 111, 114]
/-- `"title"` -/
def titleB : List Nat := [116, 105, 116, 108, 101]
/-- `"_s.d._"` -/
def sdB : List Nat := [95, 115, 46, 100, 46, 95]
/-- `" AND "` -/
def andB : List Nat := [32, 65, 78, 68, 32]
/-- `", _et al._"` -/
def etAlB : List Nat := [44, 32, 95, 101, 116, 32, 97, 108, 46, 95]
/-- `"; "` -/
def semiB : List Nat := [59, 32]
/-- `","` -/
def commaB : List Nat := [44]
/-- `" "` -/
def spaceSepB : List Nat := [32]
/-- `"authors"` -/
def authorsB : List Nat := [97, 117, 116, 104, 111, 114, 115]
/-- `"first_page"` -/
def first_pageB : List Nat := [102, 105, 114, 115, 116, 95, 112, 97, 103, 101]
/-- `"last_page"` -/
def last_pageB : List Nat := [108, 97, 115, 116, 95, 112, 97, 103, 101]
/-- `"abstract"` -/
def abstractB : List Nat := [97, 98, 115, 116, 114, 97, 99, 116]
/-- `"keywords"` -/
def keywordsB : List Nat := [107, 101, 121, 119, 111, 114, 100, 115]
/-- `"section"` -/
def sectionB : List Nat := [115, 101, 99, 116, 105, 111, 110]
/-- `"number"` -/
def numberB : List Nat := [110, 117, 109, 98, 101, 114]
/-- `"semester"` -/
def semesterB : List Nat := [115, 101, 109, 101, 115, 116, 101, 114]

/-! ### nom primitive combinators used by the sources -/

/-- `space` (src/space.rs): `take_while` over the whitespace class.  It can
never fail, so it is embedded as the total function returning the
remainder. -/
def space (input : List Nat) : List Nat := input.dropWhile isWsB

/-- nom `tag(t)`: consume the literal prefix `t` or fail. -/
def tagP (t input : List Nat) : Option (List Nat) :=
  if t.isPrefixOf input then some (input.drop t.length) else none

/-- nom `char(c)`: consume exactly the byte `c` or fail (the streaming
variant used in src/metadata.rs additionally reports `Incomplete` on empty
input; both failure kinds collapse to `none` here). -/
def charP (c : Nat) : List Nat → Option (List Nat)
  | [] => none
  | b :: rest => if b = c then some rest else none

/-- nom `is_not(set)`: consume the maximal run of bytes outside `set`,
failing when that run is empty. -/
def isNotP (s input : List Nat) : Option (List Nat × List Nat) :=
  let v := input.takeWhile fun b => !(s.contains b)
  if v.isEmpty then none
  else some (input.dropWhile (fun b => !(s.contains b)), v)

/-- nom `take_until(t)` (complete): find the first occurrence of `t`,
returning (remainder starting at the occurrence, consumed bytes before it);
fail when `t` never occurs. -/
def takeUntil (t : List Nat) : List Nat → Option (List Nat × List Nat)
  | [] => if t.isPrefixOf [] then some ([], []) else none
  | b :: rest =>
    if t.isPrefixOf (b :: rest) then some (b :: rest, [])
    else
      match takeUntil t rest with
      | some (rem, pre) => some (rem, b :: pre)
      | none => none

/-- nom `alt` over a list of `tag` parsers, tried in order; returns the
remainder and the matched literal. -/
def altTags : List (List Nat) → List Nat → Option (List Nat × List Nat)
  | [], _ => none
  | t :: ts, input =>
    match tagP t input with
    | some rest => some (rest, t)
    | none => altTags ts input

/-! ### src/paragraph.rs -/

/-- `paragraph` (src/paragraph.rs): skip whitespace, then take until the
4-byte `\par` terminator (dropping the terminator from the remainder), or
take the whole rest of the input when the terminator never occurs. -/
def paragraph (input : List Nat) : Option (List Nat × List Nat) :=
  let input := space input
  match takeUntil parB input with
  | some (rem, par) => some (rem.drop 4, par)
  | none => some ([], input)

/-! ### src/author.rs -/

structure Author where
  given : List Nat
  family : List Nat
deriving DecidableEq

/-- `name` (src/author.rs): a nonempty run of bytes outside `,.\`, with one
trailing `,` or `.` consumed and discarded when present. -/
def name (input : List Nat) : Option (List Nat × List Nat) :=
  match isNotP [44, 46, 92] input with
  | none => none
  | some (rest, nm) =>
    let rest :=
      match rest with
      | b :: r => if b = 44 || b = 46 then r else b :: r
      | [] => []
    some (rest, nm)

inductive AuthorPart where
  | Given : List Nat → AuthorPart
  | Family : List Nat → AuthorPart
deriving DecidableEq

/-- The `separator` closure inside `author_part`: whitespace, `>`,
whitespace. -/
def separator (input : List Nat) : Option (List Nat) :=
  match charP 62 (space input) with
  | some rest => some (space rest)
  | none => none

/-- `author_part` (src/author.rs): whitespace, then
`separated_pair(alt((tag "given", tag "family")), separator, name)`. -/
def author_part (input : List Nat) : Option (List Nat × AuthorPart) :=
  let input := space input
  match tagP givenB input with
  | some rest =>
    match separator rest with
    | some rest =>
      match name rest with
      | some (rest, v) => some (rest, .Given v)
      | none => none
    | none => none
  | none =>
    match tagP familyB input with
    | some rest =>
      match separator rest with
      | some rest =>
        match name rest with
        | some (rest, v) => some (rest, .Family v)
        | none => none
      | none => none
    | none => none

/-- `author` (src/author.rs): two `author_part`s, one `given` and one
`family` in either order; any other combination is a grammar error. -/
def author (input : List Nat) : Option (List Nat × Author) :=
  match author_part input with
  | none => none
  | some (i1, p1) =>
    match author_part i1 with
    | none => none
    | some (i2, p2) =>
      match p1, p2 with
      | .Family f, .Given g => some (i2, ⟨g, f⟩)
      | .Given g, .Family f => some (i2, ⟨g, f⟩)
      | _, _ => none

/-! ### src/abstract.rs — parsing -/

inductive AbstractPart where
  | Text : List Nat → AbstractPart
  | Textit : List Nat → AbstractPart
  | Citeyear : List Nat → AbstractPart
  | Cite : List Nat → AbstractPart
deriving DecidableEq

structure Abstract where
  parts : List AbstractPart
deriving DecidableEq

/-- First alternative of `block`: `delimited(char '{', is_not "}", char '}')`. -/
def braced (input : List Nat) : Option (List Nat × List Nat) :=
  match charP 123 input with
  | none => none
  | some r =>
    match isNotP [125] r with
    | none => none
    | some (r2, arg) =>
      match charP 125 r2 with
      | none => none
      | some r3 => some (r3, arg)

/-- Second alternative of `block`: `is_not " \t\r\n"`. -/
def not_braced (input : List Nat) : Option (List Nat × List Nat) :=
  isNotP [32, 9, 13, 10] input

/-- `block` (src/abstract.rs): braced argument, else non-whitespace run. -/
def block (input : List Nat) : Option (List Nat × List Nat) :=
  match braced input with
  | some r => some r
  | none => not_braced input

/-- `command` (src/abstract.rs): whitespace, `\`, one of
`textit`/`citeyear`/`cite` (tried in that order), whitespace, argument
block. -/
def command (input : List Nat) : Option (List Nat × AbstractPart) :=
  let input := space input
  match tagP [92] input with
  | none => none
  | some input =>
    match altTags [textitB, citeyearB, citeB] input with
    | none => none
    | some (input, cmd) =>
      let input := space input
      match block input with
      | none => none
      | some (input, arg) =>
        if cmd = textitB then some (input, .Textit arg)
        else if cmd = citeyearB then some (input, .Citeyear arg)
        else if cmd = citeB then some (input, .Cite arg)
        else none

/-- `text` (src/abstract.rs): a nonempty run of non-escape bytes. -/
def text (input : List Nat) : Option (List Nat × AbstractPart) :=
  match isNotP [92] input with
  | some (rest, t) => some (rest, .Text t)
  | none => none

/-- The `alt((text, command))` alternative inside `r#abstract`. -/
def partP (input : List Nat) : Option (List Nat × AbstractPart) :=
  match text input with
  | some r => some r
  | none => command input

/-- nom `many0` over `partP`.  The fuel argument only bounds the recursion;
`partP` consumes at least one byte whenever it succeeds (proved below), so
`fuel = length + 1` never runs out.  Like nom's `many0`, a successful inner
parse that consumes nothing is an error. -/
def many0Part : Nat → List Nat → Option (List Nat × List AbstractPart)
  | 0, _ => none
  | f + 1, input =>
    match partP input with
    | none => some (input, [])
    | some (rest, p) =>
      if rest.length < input.length then
        match many0Part f rest with
        | some (r, ps) => some (r, p :: ps)
        | none => none
      else none

/-- `r#abstract` (src/abstract.rs): `many0(alt((text, command)))`. -/
def abstract (input : List Nat) : Option (List Nat × Abstract) :=
  match many0Part (input.length + 1) input with
  | some (r, ps) => some (r, ⟨ps⟩)
  | none => none

/-! ### src/abstract.rs — rendering -/

inductive Format where
  | Markdown
  | PlainText

/-- `Format::italic` (src/abstract.rs). -/
def Format.italic (format : Format) (t : List Nat) : List Nat :=
  match format with
  | .Markdown => [95] ++ t ++ [95]
  | .PlainText => t

/-- Render-time failures: a missing bibliography entry
(`std::io::Error` "bibliography not found: KEY") or the Rust panic raised
by an out-of-bounds vector index. -/
inductive RenderErr where
  | bibNotFound : List Nat → RenderErr
  | indexOutOfBounds : RenderErr
deriving DecidableEq

/-- The bibliography collaborator: citation key to tag list (`tags()`),
looked up by exact key with first match winning (`HashMap::get` /
`find_map`). -/
abbrev Bib := List (List Nat × List (List Nat × List Nat))

/-- `str::trim` on ASCII whitespace. -/
def trimB (s : List Nat) : List Nat :=
  ((s.dropWhile isWsB).reverse.dropWhile isWsB).reverse

/-- `str::to_uppercase` on an ASCII byte. -/
def toUpperB (b : Nat) : Nat := if 97 ≤ b ∧ b ≤ 122 then b - 32 else b

/-- Fueled worker for `str::split`: split on each occurrence of `t`, left
to right.  Every step drops at least `t.length ≥ 1` bytes, so
`fuel = length + 1` never runs out on the separators used here. -/
def splitSubF (t : List Nat) : Nat → List Nat → List (List Nat)
  | 0, s => [s]
  | f + 1, s =>
    match takeUntil t s with
    | some (rem, pre) => pre :: splitSubF t f (rem.drop t.length)
    | none => [s]

/-- `str::split(t)` as a list of pieces. -/
def splitSub (t s : List Nat) : List (List Nat) := splitSubF t (s.length + 1) s

/-- `v.split(t).next().unwrap()`: the bytes before the first occurrence of
`t` (the whole of `v` when `t` never occurs). -/
def beforeSub (t s : List Nat) : List Nat :=
  match takeUntil t s with
  | some (_, pre) => pre
  | none => s

/-- The author-string computation of the `Cite` arm of
`Abstract::write_to` (src/abstract.rs lines 97-130): split the `author`
tag on `" AND "`, keep each part before its first comma, then dispatch on
the number of names.  The `s.len() <= 1` branch evaluates `s[1]`, an
out-of-bounds index on the one-element vector `split` always returns for a
single name: `s[1]?` is `none` exactly when Rust panics.  Without an
`author` tag, fall back to the first space-delimited word of `title`, then
to the empty string. -/
def citeAuthor (tags : List (List Nat × List Nat)) : Option (List Nat) :=
  match List.lookup authorB tags with
  | some v =>
    let s := (splitSub andB v).map (beforeSub commaB)
    if s.length > 3 then some (s.headI ++ etAlB)
    else if s.length > 1 then some (List.intercalate semiB s)
    else s[1]?
  | none =>
    match List.lookup titleB tags with
    | some v => some (beforeSub spaceSepB v)
    | none => some []

/-- One iteration of the `for part in parts` loop of `Abstract::write_to`:
the bytes the part writes, or the error it raises. -/
def renderPart (bib : Bib) (format : Format) :
    AbstractPart → Except RenderErr (List Nat)
  | .Text t => .ok t
  | .Textit t => .ok (format.italic t)
  | .Citeyear key =>
    match List.lookup key bib with
    | none => .error (.bibNotFound key)
    | some tags => .ok ([40] ++ (List.lookup yearB tags).getD sdB ++ [41])
  | .Cite key =>
    match List.lookup key bib with
    | none => .error (.bibNotFound key)
    | some tags =>
      let year := (List.lookup yearB tags).getD sdB
      match citeAuthor tags with
      | none => .error .indexOutOfBounds
      | some a =>
        .ok ([40] ++ (trimB a).map toUpperB ++ [44, 32] ++ trimB year ++ [41])

/-- The part loop of `Abstract::write_to`: bytes written to the sink so
far, stopping at the first failing part (whose own bytes are not
written). -/
def writeParts (bib : Bib) (format : Format) :
    List AbstractPart → List Nat × Option RenderErr
  | [] => ([], none)
  | p :: ps =>
    match renderPart bib format p with
    | .error e => ([], some e)
    | .ok b =>
      match writeParts bib format ps with
      | (rest, err) => (b ++ rest, err)

/-- `Abstract::write_to` (src/abstract.rs). -/
def Abstract.write_to (a : Abstract) (bib : Bib) (format : Format) :
    List Nat × Option RenderErr :=
  writeParts bib format a.parts

/-! ### src/metadata.rs -/

structure Metadata where
  authors : Option (List Author)
  title : Option (List Nat)
  first_page : Option (List Nat)
  last_page : Option (List Nat)
  abstract : Option Abstract
  keywords : Option (List Nat)
  «section» : Option (List Nat)
  number : Option (List Nat)
  semester : Option (List Nat)
  year : Option (List Nat)
deriving DecidableEq

/-- `Metadata::default` (src/metadata.rs): every field absent. -/
def Metadata.default : Metadata :=
  ⟨none, none, none, none, none, none, none, none, none, none⟩

/-- The `escape` helper of `Metadata::wtite_to`: each `"` becomes `\"`. -/
def escape : List Nat → List Nat
  | [] => []
  | b :: rest => if b = 34 then 92 :: 34 :: escape rest else b :: escape rest

/-- The `description` truncation of `Metadata::wtite_to` (src/metadata.rs
lines 78-83): over 143 bytes, truncate to 140 and append `...`. -/
def descBuf (buf : List Nat) : List Nat :=
  if buf.length > 143 then buf.take 140 ++ [46, 46, 46] else buf

/-- The `title:` front-matter line (present only when `title` is set). -/
def titleLine (m : Metadata) : List Nat :=
  match m.title with
  | some t => bytes "title: \"" ++ escape t ++ bytes "\"\n"
  | none => []

/-- The `authors:` front-matter block. -/
def authorsBlock (m : Metadata) : List Nat :=
  match m.authors with
  | some as =>
    bytes "authors:" ++
      (as.map fun a =>
        bytes "\n- given: " ++ a.given ++ bytes "\n  family: " ++ a.family).flatten
      ++ [10]
  | none => []

/-- The `tags:` front-matter block: keywords split on `.`, trimmed, empty
pieces dropped. -/
def tagsBlock (m : Metadata) : List Nat :=
  match m.keywords with
  | some kws =>
    bytes "tags:" ++
      ((splitSub [46] kws).map fun kw =>
        let kw := trimB kw
        if kw = [] then [] else bytes "\n- " ++ kw).flatten
      ++ [10]
  | none => []

/-- The `pages:` line, only when both page fields are present. -/
def pagesBlock (m : Metadata) : List Nat :=
  match m.first_page, m.last_page with
  | some fp, some lp => bytes "pages: [" ++ fp ++ bytes ", " ++ lp ++ bytes "]\n"
  | _, _ => []

/-- The `section:` line. -/
def sectionBlock (m : Metadata) : List Nat :=
  match m.«section» with
  | some s => bytes "section: \"" ++ escape s ++ bytes "\"\n"
  | none => []

/-- The `series:`/`number:` lines, both derived from `number`. -/
def numberBlock (m : Metadata) : List Nat :=
  match m.number with
  | some n =>
    bytes "series: [n" ++ escape n ++ bytes "]\n" ++
      bytes "number: " ++ escape n ++ [10]
  | none => []

/-- The `semester:` line. -/
def semesterBlock (m : Metadata) : List Nat :=
  match m.semester with
  | some s => bytes "semester: " ++ escape s ++ [10]
  | none => []

/-- The `year:` line (the value is trimmed before escaping). -/
def yearBlock (m : Metadata) : List Nat :=
  match m.year with
  | some y => bytes "year: " ++ escape (trimB y) ++ [10]
  | none => []

/-- The `**Palavras-chave:**` body line. -/
def kwBody (m : Metadata) : List Nat :=
  match m.keywords with
  | some kws => bytes "**Palavras-chave:** " ++ kws ++ [10]
  | none => []

/-- Everything `Metadata::wtite_to` writes after the `description` field
and before the body: date line, remaining front-matter blocks and the
closing `---` with its blank line. -/
def frontRest (m : Metadata) (date : List Nat) : List Nat :=
  bytes "date: " ++ date ++ [10] ++ authorsBlock m ++ tagsBlock m ++
    pagesBlock m ++ sectionBlock m ++ numberBlock m ++ semesterBlock m ++
    yearBlock m ++ bytes "---\n\n"

/-- The tail of `Metadata::wtite_to` after the `description` field:
remaining front matter, then the `**Resumo:**` body (written directly to
the sink, so its bytes survive a mid-render error) and keywords line. -/
def afterDesc (m : Metadata) (bib : Bib) (date acc : List Nat) :
    List Nat × Option RenderErr :=
  let acc := acc ++ frontRest m date
  match m.abstract with
  | none => (acc ++ kwBody m, none)
  | some a =>
    let acc := acc ++ bytes "**Resumo:** "
    match a.write_to bib .Markdown with
    | (buf, some e) => (acc ++ buf, some e)
    | (buf, none) => (acc ++ buf ++ bytes "\n\n" ++ kwBody m, none)

/-- `Metadata::wtite_to` (src/metadata.rs, name as in the source): the
full record render.  The `description` value is rendered into a temporary
buffer (discarded on error), but the `---` opener, the title line and the
`description: "` prefix have already been written to the sink when that
render fails. -/
def Metadata.wtite_to (m : Metadata) (bib : Bib) (date : List Nat) :
    List Nat × Option RenderErr :=
  let acc := bytes "---\n" ++ titleLine m
  match m.abstract with
  | none => afterDesc m bib date acc
  | some a =>
    let acc := acc ++ bytes "description: \""
    match a.write_to bib .PlainText with
    | (_, some e) => (acc, some e)
    | (buf, none) => afterDesc m bib date (acc ++ escape (descBuf buf) ++ bytes "\"\n")

/-- `divisor` (src/metadata.rs): whitespace, `=`, whitespace. -/
def divisor (input : List Nat) : Option (List Nat) :=
  match charP 61 (space input) with
  | some rest => some (space rest)
  | none => none

/-- The keyword alternative of `metadata` (src/metadata.rs), in source
order. -/
def keyTags : List (List Nat) :=
  [authorsB, titleB, first_pageB, last_pageB, abstractB, keywordsB,
   sectionB, numberB, semesterB, yearB, parB]

/-- One attempt of the keyword alternative. -/
def keyP (input : List Nat) : Option (List Nat × List Nat) :=
  altTags keyTags input

/-- nom `many0(author)`, fueled like `many0Part`. -/
def many0author : Nat → List Nat → Option (List Nat × List Author)
  | 0, _ => none
  | f + 1, input =>
    match author input with
    | none => some (input, [])
    | some (rest, a) =>
      if rest.length < input.length then
        match many0author f rest with
        | some (r, as) => some (r, a :: as)
        | none => none
      else none

/-- nom `many1(author)`: one `author`, then `many0(author)`. -/
def many1author (input : List Nat) : Option (List Nat × List Author) :=
  match author input with
  | none => none
  | some (rest, a) =>
    if rest.length < input.length then
      match many0author (rest.length + 1) rest with
      | some (r, as) => some (r, a :: as)
      | none => none
    else none

/-- The field loop of `metadata` (src/metadata.rs): skip whitespace, try
the keyword alternative; on failure break, returning the input as it was
at the top of the iteration (the skipped whitespace is not committed).  A
bare `\par` is consumed and ignored; any other keyword requires `divisor`
and its field value, the parsed value overwriting the record field.  Each
continuing iteration consumes at least the keyword, so
`fuel = length + 1` never runs out. -/
def metadataLoop : Nat → Metadata → List Nat → Option (List Nat × Metadata)
  | 0, _, _ => none
  | f + 1, m, input =>
    let inp := space input
    match keyP inp with
    | none => some (input, m)
    | some (inp, key) =>
      if key = parB then metadataLoop f m inp
      else
        match divisor inp with
        | none => none
        | some inp =>
          if key = authorsB then
            match many1author inp with
            | none => none
            | some (inp, as) =>
              match paragraph inp with
              | none => none
              | some (inp, _) => metadataLoop f { m with authors := some as } inp
          else if key = titleB then
            match paragraph inp with
            | none => none
            | some (inp, v) => metadataLoop f { m with title := some v } inp
          else if key = first_pageB then
            match paragraph inp with
            | none => none
            | some (inp, v) => metadataLoop f { m with first_page := some v } inp
          else if key = last_pageB then
            match paragraph inp with
            | none => none
            | some (inp, v) => metadataLoop f { m with last_page := some v } inp
          else if key = abstractB then
            match abstract inp with
            | none => none
            | some (inp, a) =>
              match paragraph inp with
              | none => none
              | some (inp, _) => metadataLoop f { m with abstract := some a } inp
          else if key = keywordsB then
            match paragraph inp with
            | none => none
            | some (inp, v) => metadataLoop f { m with keywords := some v } inp
          else if key = sectionB then
            match paragraph inp with
            | none => none
            | some (inp, v) => metadataLoop f { m with «section» := some v } inp
          else if key = numberB then
            match paragraph inp with
            | none => none
            | some (inp, v) => metadataLoop f { m with number := some v } inp
          else if key = semesterB then
            match paragraph inp with
            | none => none
            | some (inp, v) => metadataLoop f { m with semester := some v } inp
          else if key = yearB then
            match paragraph inp with
            | none => none
            | some (inp, v) => metadataLoop f { m with year := some v } inp
          else none

/-- `metadata` (src/metadata.rs): the top-level record parser. -/
def metadata (input : List Nat) : Option (List Nat × Metadata) :=
  metadataLoop (input.length + 1) Metadata.default input

/-! ### Sanity checks tying the byte constants to their ASCII strings -/

theorem byteConstants_spec :
    parB = bytes "\\par" ∧ givenB = bytes "given" ∧ familyB = bytes "family" ∧
    textitB = bytes "textit" ∧ citeyearB = bytes "citeyear" ∧
    citeB = bytes "cite" ∧ yearB = bytes "year" ∧ authorB = bytes "author" ∧
    titleB = bytes "title" ∧ sdB = bytes "_s.d._" ∧ andB = bytes " AND " ∧
    etAlB = bytes ", _et al._" ∧ semiB = bytes "; " ∧
    authorsB = bytes "authors" ∧ first_pageB = bytes "first_page" ∧
    last_pageB = bytes "last_page" ∧ abstractB = bytes "abstract" ∧
    keywordsB = bytes "keywords" ∧ sectionB = bytes "section" ∧
    numberB = bytes "number" ∧ semesterB = bytes "semester" := by decide

/-! ### Supporting list lemmas -/

theorem lenDropWhile_le (p : Nat → Bool) (l : List Nat) :
    (l.dropWhile p).length ≤ l.length := by
  induction l with
  | nil => simp [List.dropWhile]
  | cons a l ih =>
    simp only [List.dropWhile]
    cases p a
    · simp
    · simp only [List.length_cons]
      omega

theorem takeWhile_all (p : Nat → Bool) (l : List Nat) (h : ∀ b ∈ l, p b = true) :
    l.takeWhile p = l ∧ l.dropWhile p = [] := by
  induction l with
  | nil => simp [List.takeWhile, List.dropWhile]
  | cons a l ih =>
    have ha : p a = true := h a (by simp)
    have h2 := ih fun b hb => h b (by simp [hb])
    simp [List.takeWhile, List.dropWhile, ha, h2.1, h2.2]

theorem dropWhile_ws_append (p : Nat → Bool) (w r : List Nat)
    (hw : ∀ b ∈ w, p b = true) :
    (w ++ r).dropWhile p = r.dropWhile p := by
  induction w with
  | nil => simp
  | cons a w ih =>
    have ha : p a = true := hw a (by simp)
    simp [List.dropWhile, ha, ih fun b hb => hw b (by simp [hb])]

theorem takeWhile_append_stop (p : Nat → Bool) (v r : List Nat)
    (hv : ∀ b ∈ v, p b = true) (hr : ∀ b, r.head? = some b → p b = false) :
    (v ++ r).takeWhile p = v ∧ (v ++ r).dropWhile p = r := by
  induction v with
  | nil =>
    cases r with
    | nil => simp
    | cons b rs =>
      have hb : p b = false := hr b rfl
      simp [List.takeWhile, List.dropWhile, hb]
  | cons a v ih =>
    have ha : p a = true := hv a (by simp)
    have h2 := ih fun b hb => hv b (by simp [hb])
    simp [List.takeWhile, List.dropWhile, ha, h2.1, h2.2]

theorem head?_append_left (x z : List Nat) (hx : x ≠ []) :
    (x ++ z).head? = x.head? := by
  cases x with
  | nil => exact absurd rfl hx
  | cons b bs => rfl

theorem isPrefixOf_iff (t : List Nat) :
    ∀ s, t.isPrefixOf s = true ↔ ∃ q, t ++ q = s := by
  induction t with
  | nil => intro s; simp [List.isPrefixOf]
  | cons a as ih =>
    intro s
    cases s with
    | nil => simp [List.isPrefixOf]
    | cons b bs =>
      simp only [List.isPrefixOf, Bool.and_eq_true, beq_iff_eq, ih bs,
        List.cons_append, List.cons.injEq]
      constructor
      · rintro ⟨rfl, q, rfl⟩
        exact ⟨q, rfl, rfl⟩
      · rintro ⟨q, rfl, rfl⟩
        exact ⟨rfl, q, rfl⟩

theorem isPrefixOf_append_self (t r : List Nat) : t.isPrefixOf (t ++ r) = true :=
  (isPrefixOf_iff t (t ++ r)).mpr ⟨r, rfl⟩

/-! ### Lemmas about the primitive combinators -/

theorem tagP_append (t r : List Nat) : tagP t (t ++ r) = some r := by
  unfold tagP
  rw [if_pos (isPrefixOf_append_self t r), List.drop_left]

theorem tagP_some_decomp (t input r : List Nat) (h : tagP t input = some r) :
    input = t ++ r := by
  unfold tagP at h
  split at h
  · next hp =>
    obtain ⟨q, hq⟩ := (isPrefixOf_iff t input).mp hp
    cases h
    rw [← hq, List.drop_left]
  · cases h

theorem charP_some (c : Nat) (input r : List Nat) (h : charP c input = some r) :
    input = c :: r := by
  cases input with
  | nil => cases h
  | cons b bs =>
    simp only [charP] at h
    split at h
    · next hb => cases h; rw [hb]
    · cases h

theorem isNotP_some_decomp (s input r v : List Nat)
    (h : isNotP s input = some (r, v)) : input = v ++ r ∧ v ≠ [] := by
  simp only [isNotP] at h
  split at h
  · cases h
  · next hne =>
    cases h
    refine ⟨(List.takeWhile_append_dropWhile _ _).symm, ?_⟩
    intro hnil
    rw [hnil] at hne
    exact hne rfl

theorem isNotP_spec (s v r : List Nat) (hv : v ≠ [])
    (hall : ∀ b ∈ v, (!(s.contains b)) = true)
    (hstop : ∀ b, r.head? = some b → (!(s.contains b)) = false) :
    isNotP s (v ++ r) = some (r, v) := by
  obtain ⟨htw, hdw⟩ :=
    takeWhile_append_stop (fun b => !(s.contains b)) v r hall hstop
  have hne : v.isEmpty = false := by
    cases v with
    | nil => exact absurd rfl hv
    | cons a l => rfl
  simp only [isNotP, htw, hdw, hne]
  rfl

theorem altTags_some (ts : List (List Nat)) (input r t : List Nat)
    (h : altTags ts input = some (r, t)) : tagP t input = some r := by
  induction ts with
  | nil => cases h
  | cons t' ts ih =>
    simp only [altTags] at h
    cases ht' : tagP t' input with
    | some rest => rw [ht'] at h; cases h; exact ht'
    | none => rw [ht'] at h; exact ih h

theorem space_append (w r : List Nat) (hw : ∀ b ∈ w, isWsB b = true)
    (hr : ∀ b, r.head? = some b → isWsB b = false) : space (w ++ r) = r := by
  unfold space
  rw [dropWhile_ws_append isWsB w r hw]
  have h2 := (takeWhile_append_stop isWsB [] r (by simp) hr).2
  simpa using h2

theorem space_le (input : List Nat) : (space input).length ≤ input.length :=
  lenDropWhile_le isWsB input

theorem space_suffix (input : List Nat) : space input <:+ input :=
  List.dropWhile_suffix _

/-! ### takeUntil: decomposition, absence, minimality -/

theorem takeUntil_some_decomp (t : List Nat) :
    ∀ s rem pre, takeUntil t s = some (rem, pre) →
      s = pre ++ rem ∧ t.isPrefixOf rem = true := by
  intro s
  induction s with
  | nil =>
    intro rem pre h
    simp only [takeUntil] at h
    split at h
    · next hp => cases h; exact ⟨rfl, hp⟩
    · cases h
  | cons b rest ih =>
    intro rem pre h
    simp only [takeUntil] at h
    split at h
    · next hp => cases h; exact ⟨rfl, hp⟩
    · next hp =>
      cases h' : takeUntil t rest with
      | none => rw [h'] at h; cases h
      | some pr =>
        obtain ⟨rem', pre'⟩ := pr
        rw [h'] at h
        cases h
        obtain ⟨hd, hpf⟩ := ih _ _ h'
        exact ⟨by rw [List.cons_append, ← hd], hpf⟩

theorem takeUntil_none (t : List Nat) :
    ∀ s, takeUntil t s = none → ∀ p q, s ≠ p ++ t ++ q := by
  intro s
  induction s with
  | nil =>
    intro h p q heq
    simp only [takeUntil] at h
    split at h
    · cases h
    · next hp =>
      have ht : t = [] := by
        have h2 := heq.symm
        rw [List.append_eq_nil] at h2
        rw [List.append_eq_nil] at h2
        exact h2.1.2
      exact hp (by rw [ht]; rfl)
  | cons b rest ih =>
    intro h p q heq
    simp only [takeUntil] at h
    split at h
    · cases h
    · next hp =>
      cases h' : takeUntil t rest with
      | some pr => obtain ⟨r1, p1⟩ := pr; rw [h'] at h; cases h
      | none =>
        cases p with
        | nil =>
          apply hp
          rw [isPrefixOf_iff]
          exact ⟨q, by simpa using heq.symm⟩
        | cons b' p' =>
          rw [List.cons_append, List.cons_append] at heq
          injection heq with h1 h2
          exact ih h' p' q h2

theorem takeUntil_min (t : List Nat) :
    ∀ s rem pre, takeUntil t s = some (rem, pre) →
      ∀ p q, s = p ++ t ++ q → pre.length ≤ p.length := by
  intro s
  induction s with
  | nil =>
    intro rem pre h p q heq
    simp only [takeUntil] at h
    split at h
    · cases h; simp
    · cases h
  | cons b rest ih =>
    intro rem pre h p q heq
    simp only [takeUntil] at h
    split at h
    · cases h; simp
    · next hp =>
      cases h' : takeUntil t rest with
      | none => rw [h'] at h; cases h
      | some pr =>
        obtain ⟨rem', pre'⟩ := pr
        rw [h'] at h
        cases h
        cases p with
        | nil =>
          exfalso
          apply hp
          rw [isPrefixOf_iff]
          exact ⟨q, by simpa using heq.symm⟩
        | cons b' p' =>
          rw [List.cons_append, List.cons_append] at heq
          injection heq with h1 h2
          have h3 := ih _ _ h' p' q h2
          simp only [List.length_cons]
          omega

/-! ### Consumption and suffix facts for the abstract-parser loop -/

theorem tagP_suffix (t input r : List Nat) (h : tagP t input = some r) :
    r <:+ input :=
  ⟨t, (tagP_some_decomp t input r h).symm⟩

theorem charP_suffix (c : Nat) (input r : List Nat) (h : charP c input = some r) :
    r <:+ input :=
  ⟨[c], (charP_some c input r h).symm⟩

theorem isNotP_suffix (s input r v : List Nat) (h : isNotP s input = some (r, v)) :
    r <:+ input :=
  ⟨v, (isNotP_some_decomp s input r v h).1.symm⟩

theorem isNotP_lt (s input r v : List Nat) (h : isNotP s input = some (r, v)) :
    r.length < input.length := by
  obtain ⟨hd, hv⟩ := isNotP_some_decomp s input r v h
  rw [hd, List.length_append]
  cases v with
  | nil => exact absurd rfl hv
  | cons a l => simp

theorem suffix_le (a b : List Nat) (h : a <:+ b) : a.length ≤ b.length := by
  obtain ⟨c, hc⟩ := h
  rw [← hc, List.length_append]
  omega

theorem braced_suffix (input r v : List Nat) (h : braced input = some (r, v)) :
    r <:+ input := by
  cases h1 : charP 123 input with
  | none => simp only [braced, h1] at h; cases h
  | some r1 =>
    cases h2 : isNotP [125] r1 with
    | none => simp only [braced, h1, h2] at h; cases h
    | some pr =>
      obtain ⟨r2, arg⟩ := pr
      cases h3 : charP 125 r2 with
      | none => simp only [braced, h1, h2, h3] at h; cases h
      | some r3 =>
        simp only [braced, h1, h2, h3, Option.some.injEq, Prod.mk.injEq] at h
        obtain ⟨hr, _⟩ := h
        subst hr
        exact ((charP_suffix _ _ _ h3).trans (isNotP_suffix _ _ _ _ h2)).trans
          (charP_suffix _ _ _ h1)

theorem block_suffix (input r v : List Nat) (h : block input = some (r, v)) :
    r <:+ input := by
  cases h1 : braced input with
  | some pr =>
    obtain ⟨r1, v1⟩ := pr
    simp only [block, h1, Option.some.injEq, Prod.mk.injEq] at h
    obtain ⟨hr, _⟩ := h
    subst hr
    exact braced_suffix _ _ _ h1
  | none =>
    simp only [block, h1] at h
    exact isNotP_suffix _ _ _ _ h

theorem command_some_facts (input rest : List Nat) (p : AbstractPart)
    (h : command input = some (rest, p)) :
    rest <:+ input ∧ rest.length < input.length := by
  cases h1 : tagP [92] (space input) with
  | none => simp only [command, h1] at h; cases h
  | some i2 =>
    cases h2 : altTags [textitB, citeyearB, citeB] i2 with
    | none => simp only [command, h1, h2] at h; cases h
    | some pr =>
      obtain ⟨i3, cmd⟩ := pr
      cases h3 : block (space i3) with
      | none => simp only [command, h1, h2, h3] at h; cases h
      | some pr2 =>
        obtain ⟨i4, arg⟩ := pr2
        simp only [command, h1, h2, h3] at h
        have hrest : rest = i4 := by
          split at h
          · cases h; rfl
          · split at h
            · cases h; rfl
            · split at h
              · cases h; rfl
              · cases h
        subst hrest
        have s1 : i2 <:+ space input := tagP_suffix _ _ _ h1
        have s2 : i3 <:+ i2 := tagP_suffix _ _ _ (altTags_some _ _ _ _ h2)
        have s3 : rest <:+ space i3 := block_suffix _ _ _ h3
        have hsuf : rest <:+ input :=
          (((s3.trans (space_suffix i3)).trans s2).trans s1).trans
            (space_suffix input)
        refine ⟨hsuf, ?_⟩
        have l1 : i2.length < (space input).length := by
          rw [tagP_some_decomp _ _ _ h1, List.length_append]
          simp
        have l2 : i3.length ≤ i2.length := suffix_le _ _ s2
        have l3 : rest.length ≤ (space i3).length := suffix_le _ _ s3
        have l4 := space_le i3
        have l5 := space_le input
        omega

theorem text_some_facts (input rest : List Nat) (p : AbstractPart)
    (h : text input = some (rest, p)) :
    rest <:+ input ∧ rest.length < input.length := by
  cases h1 : isNotP [92] input with
  | none => simp only [text, h1] at h; cases h
  | some pr =>
    obtain ⟨r, v⟩ := pr
    simp only [text, h1, Option.some.injEq, Prod.mk.injEq] at h
    obtain ⟨hr, _⟩ := h
    subst hr
    exact ⟨isNotP_suffix _ _ _ _ h1, isNotP_lt _ _ _ _ h1⟩

theorem partP_some_facts (input rest : List Nat) (p : AbstractPart)
    (h : partP input = some (rest, p)) :
    rest <:+ input ∧ rest.length < input.length := by
  cases h1 : text input with
  | some pr =>
    obtain ⟨a, b⟩ := pr
    simp only [partP, h1, Option.some.injEq, Prod.mk.injEq] at h
    obtain ⟨ha, hb⟩ := h
    subst ha
    exact text_some_facts _ _ _ h1
  | none =>
    simp only [partP, h1] at h
    exact command_some_facts _ _ _ h

theorem partP_none_split (input : List Nat) (h : partP input = none) :
    text input = none ∧ command input = none := by
  cases h1 : text input with
  | some pr => simp only [partP, h1] at h; cases h
  | none =>
    simp only [partP, h1] at h
    exact ⟨rfl, h⟩

theorem text_none_head (b : Nat) (rest : List Nat)
    (h : text (b :: rest) = none) : b = 92 := by
  cases h1 : isNotP [92] (b :: rest) with
  | some pr => simp only [text, h1] at h; cases h
  | none =>
    simp only [isNotP] at h1
    split at h1
    · next he =>
      by_cases hb : b = 92
      · exact hb
      · exfalso
        simp [List.takeWhile, List.contains, hb] at he
    · cases h1

theorem many0Part_spec :
    ∀ f input, input.length < f →
      ∃ r ps, many0Part f input = some (r, ps) ∧ r <:+ input ∧ partP r = none := by
  intro f
  induction f with
  | zero => intro input h; omega
  | succ f ih =>
    intro input h
    cases hp : partP input with
    | none =>
      exact ⟨input, [], by simp [many0Part, hp], List.suffix_refl _, hp⟩
    | some pr =>
      obtain ⟨rest, p⟩ := pr
      obtain ⟨hsuf, hlt⟩ := partP_some_facts input rest p hp
      obtain ⟨r, ps, h1, h2, h3⟩ := ih rest (by omega)
      exact ⟨r, p :: ps, by simp [many0Part, hp, hlt, h1], h2.trans hsuf, h3⟩

/-! ### Lemmas for the author grammar -/

theorem notInNameSet (b : Nat) (h1 : b ≠ 44) (h2 : b ≠ 46) (h3 : b ≠ 92) :
    (!(([44, 46, 92] : List Nat).contains b)) = true := by
  simp [List.contains, h1, h2, h3]

theorem name_delim (x t r : List Nat) (hx : x ≠ [])
    (hxc : ∀ b ∈ x, b ≠ 44 ∧ b ≠ 46 ∧ b ≠ 92)
    (ht : t = [44] ∨ t = [46]) :
    name (x ++ (t ++ r)) = some (r, x) := by
  have hall : ∀ b ∈ x, (!(([44, 46, 92] : List Nat).contains b)) = true := by
    intro b hb
    obtain ⟨h1, h2, h3⟩ := hxc b hb
    exact notInNameSet b h1 h2 h3
  have hstop : ∀ b, (t ++ r).head? = some b →
      (!(([44, 46, 92] : List Nat).contains b)) = false := by
    intro b hb
    rcases ht with rfl | rfl
    · cases hb; rfl
    · cases hb; rfl
  have hin := isNotP_spec [44, 46, 92] x (t ++ r) hx hall hstop
  rcases ht with rfl | rfl
  · simp only [List.singleton_append] at hin
    simp [name, hin]
  · simp only [List.singleton_append] at hin
    simp [name, hin]

theorem name_end (x : List Nat) (hx : x ≠ [])
    (hxc : ∀ b ∈ x, b ≠ 44 ∧ b ≠ 46 ∧ b ≠ 92) :
    name x = some ([], x) := by
  have hall : ∀ b ∈ x, (!(([44, 46, 92] : List Nat).contains b)) = true := by
    intro b hb
    obtain ⟨h1, h2, h3⟩ := hxc b hb
    exact notInNameSet b h1 h2 h3
  have hin := isNotP_spec [44, 46, 92] x [] hx hall (fun b hb => by cases hb)
  rw [List.append_nil] at hin
  simp [name, hin]

theorem separator_spec (w w' r : List Nat)
    (hw : ∀ b ∈ w, isWsB b = true) (hw' : ∀ b ∈ w', isWsB b = true)
    (hr : ∀ b, r.head? = some b → isWsB b = false) :
    separator (w ++ (62 :: (w' ++ r))) = some r := by
  have h1 : space (w ++ (62 :: (w' ++ r))) = 62 :: (w' ++ r) :=
    space_append w (62 :: (w' ++ r)) hw (fun b hb => by cases hb; rfl)
  have h2 : space (w' ++ r) = r := space_append w' r hw' hr
  simp [separator, h1, charP, h2]

theorem tagP_given_family (z : List Nat) : tagP givenB (familyB ++ z) = none := by
  unfold tagP
  split
  · next hp =>
    exfalso
    rw [isPrefixOf_iff] at hp
    obtain ⟨q, hq⟩ := hp
    simp [givenB, familyB] at hq
  · rfl

theorem author_part_given (w1 w2 w3 nm : List Nat)
    (hw1 : ∀ b ∈ w1, isWsB b = true) (hw2 : ∀ b ∈ w2, isWsB b = true)
    (hw3 : ∀ b ∈ w3, isWsB b = true)
    (hnm : ∀ b, nm.head? = some b → isWsB b = false) :
    author_part (w1 ++ (givenB ++ (w2 ++ (62 :: (w3 ++ nm))))) =
      (name nm).map fun pr => (pr.1, AuthorPart.Given pr.2) := by
  have h0 : space (w1 ++ (givenB ++ (w2 ++ (62 :: (w3 ++ nm))))) =
      givenB ++ (w2 ++ (62 :: (w3 ++ nm))) :=
    space_append w1 _ hw1 (fun b hb => by cases hb; rfl)
  have h1 := tagP_append givenB (w2 ++ (62 :: (w3 ++ nm)))
  have h2 := separator_spec w2 w3 nm hw2 hw3 hnm
  cases hn : name nm with
  | none => simp [author_part, h0, h1, h2, hn]
  | some pr =>
    obtain ⟨a, b⟩ := pr
    simp [author_part, h0, h1, h2, hn]

theorem author_part_family (w1 w2 w3 nm : List Nat)
    (hw1 : ∀ b ∈ w1, isWsB b = true) (hw2 : ∀ b ∈ w2, isWsB b = true)
    (hw3 : ∀ b ∈ w3, isWsB b = true)
    (hnm : ∀ b, nm.head? = some b → isWsB b = false) :
    author_part (w1 ++ (familyB ++ (w2 ++ (62 :: (w3 ++ nm))))) =
      (name nm).map fun pr => (pr.1, AuthorPart.Family pr.2) := by
  have h0 : space (w1 ++ (familyB ++ (w2 ++ (62 :: (w3 ++ nm))))) =
      familyB ++ (w2 ++ (62 :: (w3 ++ nm))) :=
    space_append w1 _ hw1 (fun b hb => by cases hb; rfl)
  have hgf := tagP_given_family (w2 ++ (62 :: (w3 ++ nm)))
  have h1 := tagP_append familyB (w2 ++ (62 :: (w3 ++ nm)))
  have h2 := separator_spec w2 w3 nm hw2 hw3 hnm
  cases hn : name nm with
  | none => simp [author_part, h0, hgf, h1, h2, hn]
  | some pr =>
    obtain ⟨a, b⟩ := pr
    simp [author_part, h0, hgf, h1, h2, hn]

/-! ### Claim theorems -/

/-- C1: the claim says that a full `cite` whose resolved entry has an
`author` tag with exactly one name uses the part before the first comma,
upper-cased — e.g. `See \cite{K}.` with `{K: {author: "Smith",
year: "1999"}}` should render `See (SMITH, 1999).`.  The code instead
evaluates `s[1]` on the one-element surname vector and panics (index out
of bounds): parsing succeeds, but rendering aborts after writing `See `
with the out-of-bounds error, contradicting the repository's own
`markdown` test (which expects `(BAKHTIN, 2003)` from the single-name
entry `Bakhtin, M.`). -/
theorem C1_cite_single_author_bug :
    abstract (bytes "See \\cite\x7bK\x7d.") =
      some ([], ⟨[AbstractPart.Text (bytes "See "), AbstractPart.Cite (bytes "K"),
        AbstractPart.Text (bytes ".")]⟩) ∧
    Abstract.write_to
      ⟨[AbstractPart.Text (bytes "See "), AbstractPart.Cite (bytes "K"),
        AbstractPart.Text (bytes ".")]⟩
      [(bytes "K", [(authorB, bytes "Smith"), (yearB, bytes "1999")])]
      Format.Markdown
      = (bytes "See ", some RenderErr.indexOutOfBounds) := by decide

/-- C3 counterexample: a `citeyear` whose entry lacks a `year` tag renders
`(_s.d._)` — the fallback literal in the source is `"_s.d._"`, with
Markdown-italic underscores — not `(s.d.)` as the claim states. -/
theorem C3_counterexample :
    Abstract.write_to ⟨[AbstractPart.Citeyear [75]]⟩
      [([75], [(titleB, [84])])] Format.PlainText
      = (bytes "(_s.d._)", none) ∧
    bytes "(_s.d._)" ≠ bytes "(s.d.)" := by decide

/-- C3 (amended): for every `citeyear` citation whose key resolves to an
entry lacking a `year` tag, the renderer emits the literal fallback
`_s.d._` (underscores included, in both formats), rendering exactly
`(_s.d._)`. -/
theorem C3_citeyear_sd_fallback (bib : Bib) (k : List Nat)
    (tags : List (List Nat × List Nat)) (format : Format)
    (h1 : List.lookup k bib = some tags)
    (h2 : List.lookup yearB tags = none) :
    Abstract.write_to ⟨[AbstractPart.Citeyear k]⟩ bib format =
      (bytes "(_s.d._)", none) := by
  have hr : renderPart bib format (AbstractPart.Citeyear k) =
      .ok ([40] ++ sdB ++ [41]) := by
    simp [renderPart, h1, h2]
  have hw : Abstract.write_to ⟨[AbstractPart.Citeyear k]⟩ bib format =
      ([40] ++ sdB ++ [41] ++ [], none) := by
    simp [Abstract.write_to, writeParts, hr]
  rw [hw]
  decide

/-- C3 witness: the amended theorem applied at a concrete entry that has
only a `title` tag. -/
theorem C3_witness :
    Abstract.write_to ⟨[AbstractPart.Citeyear [75]]⟩
      [([75], [(titleB, [84])])] Format.Markdown
      = (bytes "(_s.d._)", none) :=
  C3_citeyear_sd_fallback [([75], [(titleB, [84])])] [75] [(titleB, [84])]
    Format.Markdown (by decide) (by decide)

/-- C4: the `description` truncation used by `Metadata::wtite_to`: a
rendered plain-text abstract longer than 143 bytes becomes its first 140
bytes plus three `.` bytes (143 bytes total); buffers of exactly 143 or
142 bytes pass through unchanged. -/
theorem C4_description_truncation (buf : List Nat) :
    (143 < buf.length →
      descBuf buf = buf.take 140 ++ [46, 46, 46] ∧ (descBuf buf).length = 143) ∧
    (buf.length = 143 → descBuf buf = buf) ∧
    (buf.length = 142 → descBuf buf = buf) := by
  refine ⟨?_, ?_, ?_⟩
  · intro h
    have he : descBuf buf = buf.take 140 ++ [46, 46, 46] := by
      simp [descBuf, h]
    refine ⟨he, ?_⟩
    rw [he]
    simp only [List.length_append, List.length_take, List.length_cons,
      List.length_nil]
    omega
  · intro h
    simp [descBuf, h]
  · intro h
    simp [descBuf, h]

/-- C4 witness: the truncation theorem applied to concrete buffers of
lengths 150, 143 and 142. -/
theorem C4_witness :
    descBuf (List.replicate 150 97) =
      (List.replicate 150 97).take 140 ++ [46, 46, 46] ∧
    (descBuf (List.replicate 150 97)).length = 143 ∧
    descBuf (List.replicate 143 97) = List.replicate 143 97 ∧
    descBuf (List.replicate 142 97) = List.replicate 142 97 :=
  ⟨((C4_description_truncation (List.replicate 150 97)).1 (by simp)).1,
   ((C4_description_truncation (List.replicate 150 97)).1 (by simp)).2,
   (C4_description_truncation (List.replicate 143 97)).2.1 (by simp),
   (C4_description_truncation (List.replicate 142 97)).2.2 (by simp)⟩

/-- C5 counterexample: the empty input contains no escape character, yet
the abstract parser returns an empty part list, not a single `Text` part
equal to the (empty) input. -/
theorem C5_counterexample :
    abstract [] = some ([], ⟨[]⟩) ∧
    (⟨[]⟩ : Abstract) ≠ ⟨[AbstractPart.Text []]⟩ := by decide

/-- C5 (amended): for every nonempty abstract input with no escape
character `\`, the parser produces a single `Text` part equal to the whole
input (with empty remainder), and rendering that abstract in plain-text
mode writes exactly the input bytes (the empty input instead parses to
zero parts, which still render to the empty output). -/
theorem C5_text_roundtrip (input : List Nat) (bib : Bib) (hne : input ≠ [])
    (h92 : ∀ b ∈ input, b ≠ 92) :
    abstract input = some ([], ⟨[AbstractPart.Text input]⟩) ∧
    Abstract.write_to ⟨[AbstractPart.Text input]⟩ bib Format.PlainText =
      (input, none) := by
  have hall : ∀ b ∈ input, (!(([92] : List Nat).contains b)) = true := by
    intro b hb
    simp [List.contains, h92 b hb]
  have hin := isNotP_spec [92] input [] hne hall (fun b hb => by cases hb)
  rw [List.append_nil] at hin
  have htext : text input = some ([], AbstractPart.Text input) := by
    simp [text, hin]
  have hpart : partP input = some ([], AbstractPart.Text input) := by
    simp [partP, htext]
  have hpart0 : partP [] = none := by decide
  constructor
  · cases input with
    | nil => exact absurd rfl hne
    | cons b l =>
      simp [abstract, many0Part, hpart, hpart0]
  · simp [Abstract.write_to, writeParts, renderPart]

/-- C5 witness: the amended round-trip at the concrete input `ab`. -/
theorem C5_witness :
    abstract [97, 98] = some ([], ⟨[AbstractPart.Text [97, 98]]⟩) ∧
    Abstract.write_to ⟨[AbstractPart.Text [97, 98]]⟩ [] Format.PlainText =
      ([97, 98], none) :=
  C5_text_roundtrip [97, 98] [] (by decide) (by decide)

/-- C9: the empty braced argument `{}` is rejected by the brace-delimited
alternative of `block` (whose `is_not "}"` needs at least one non-`}`
byte), so for `\cite{}` the non-whitespace fallback consumes both brace
bytes and the stored citation key is the literal two-byte string `{}`. -/
theorem C9_empty_braces_fallback :
    braced (bytes "\x7b\x7d") = none ∧
    block (bytes "\x7b\x7d") = some ([], bytes "\x7b\x7d") ∧
    command (bytes "\\cite\x7b\x7d") =
      some ([], AbstractPart.Cite (bytes "\x7b\x7d")) := by decide

/-- C10 counterexample: on input `" x"` (leading whitespace, then a byte
matching no field keyword), the metadata parser succeeds with every field
absent but returns the whole input `" x"` as remainder — the leading
whitespace is not consumed, contrary to the claim. -/
theorem C10_counterexample :
    metadata [32, 120] = some ([32, 120], Metadata.default) ∧
    ([32, 120] : List Nat) ≠ [120] := by decide

/-- C10 (amended): for every input whose first non-whitespace bytes match
none of the ten field keywords nor `\par` (including the empty input),
`metadata` succeeds, returning the all-absent record and, as remainder,
the entire input unchanged (the whitespace skipped while probing for a
keyword is not committed when the keyword alternative fails). -/
theorem C10_metadata_no_keyword (input : List Nat)
    (h : keyP (space input) = none) :
    metadata input = some (input, Metadata.default) := by
  simp [metadata, metadataLoop, h]

/-- C10 witness: the amended theorem at the concrete input `" x"`. -/
theorem C10_witness : metadata [32, 120] = some ([32, 120], Metadata.default) :=
  C10_metadata_no_keyword [32, 120] (by decide)

/-- If a part list contains a citation whose key is absent from the
bibliography, the `Abstract::write_to` loop fails (at the first failing
part, which exists because the missing citation itself fails when
reached). -/
theorem writeParts_err_of_missing (bib : Bib) (format : Format)
    (ps : List AbstractPart) (k : List Nat)
    (hk : AbstractPart.Cite k ∈ ps ∨ AbstractPart.Citeyear k ∈ ps)
    (hb : List.lookup k bib = none) :
    (writeParts bib format ps).2.isSome = true := by
  induction ps with
  | nil => simp at hk
  | cons p ps ih =>
    cases hrp : renderPart bib format p with
    | error e => simp [writeParts, hrp]
    | ok b =>
      have hk' : AbstractPart.Cite k ∈ ps ∨ AbstractPart.Citeyear k ∈ ps := by
        rcases hk with h | h
        · rcases List.mem_cons.mp h with h0 | h'
          · exfalso
            rw [← h0] at hrp
            simp [renderPart, hb] at hrp
          · exact Or.inl h'
        · rcases List.mem_cons.mp h with h0 | h'
          · exfalso
            rw [← h0] at hrp
            simp [renderPart, hb] at hrp
          · exact Or.inr h'
      have hi := ih hk'
      cases hw : writeParts bib format ps with
      | mk rest err =>
        rw [hw] at hi
        simpa [writeParts, hrp, hw] using hi

/-- C2 counterexample: a record whose abstract cites the key `K` against an
empty bibliography fails the render with the unresolved-citation error, but
output has already been produced: the `---` opener and the `description: "`
prefix were written to the sink before the failure, contradicting the
claim's "no partial front-matter or body bytes are written". -/
theorem C2_counterexample :
    Metadata.wtite_to { Metadata.default with abstract := some ⟨[AbstractPart.Cite [75]]⟩ }
      [] [] = (bytes "---\ndescription: \"", some (RenderErr.bibNotFound [75])) ∧
    bytes "---\ndescription: \"" ≠ [] := by decide

/-- C2 (amended): for every record whose abstract contains a citation with
a key absent from the bibliography, rendering fails with an error, but the
bytes written before the failing `description` field — the `---` opener,
the title line when present, and the `description: "` prefix — have
already been emitted to the output sink (they are not rolled back). -/
theorem C2_unresolved_citation (m : Metadata) (bib : Bib) (date k : List Nat)
    (a : Abstract) (hm : m.abstract = some a)
    (hk : AbstractPart.Cite k ∈ a.parts ∨ AbstractPart.Citeyear k ∈ a.parts)
    (hb : List.lookup k bib = none) :
    ∃ e, m.wtite_to bib date =
      (bytes "---\n" ++ titleLine m ++ bytes "description: \"", some e) := by
  have herr := writeParts_err_of_missing bib Format.PlainText a.parts k hk hb
  have hwt : a.write_to bib Format.PlainText = writeParts bib Format.PlainText a.parts := rfl
  cases hw : writeParts bib Format.PlainText a.parts with
  | mk buf err =>
    rw [hw] at herr
    obtain ⟨e, he⟩ := Option.isSome_iff_exists.mp herr
    have he2 : err = some e := he
    subst he2
    refine ⟨e, ?_⟩
    have hfull : a.write_to bib Format.PlainText = (buf, some e) := hwt.trans hw
    simp [Metadata.wtite_to, hm, hfull, List.append_assoc]

/-- C2 witness: the amended theorem at a concrete record with a title and a
`citeyear` of the unresolvable key `X`. -/
theorem C2_witness :
    ∃ e, Metadata.wtite_to
        { Metadata.default with
            title := some [84], abstract := some ⟨[AbstractPart.Citeyear [88]]⟩ }
        [] [] =
      (bytes "---\n" ++
        titleLine { Metadata.default with
            title := some [84], abstract := some ⟨[AbstractPart.Citeyear [88]]⟩ } ++
        bytes "description: \"", some e) :=
  C2_unresolved_citation _ [] [] [88] ⟨[AbstractPart.Citeyear [88]]⟩ rfl
    (Or.inr (by decide)) (by decide)

/-- C6 counterexample: with no terminator after the first name — as the
claim's "with `,`, `.`, or no terminator after each name" allows — parsing
fails entirely: in `given>A family>B` the name run swallows
` family>B` (space and `>` are legal name bytes), so no second labelled
part remains and `author` returns a grammar error instead of
`{given: A, family: B}`; with the terminator present it succeeds. -/
theorem C6_counterexample :
    author (bytes "given>A family>B") = none ∧
    author (bytes "given>A,family>B") = some ([], ⟨[65], [66]⟩) := by decide

/-- C6 (amended): order-independence of the two labelled author parts.  For
all nonempty names X and Y that contain none of `,`, `.`, `\` and do not
begin with whitespace, and with a `,` or `.` terminator after the first
name (the second may use `,`, `.`, or no terminator), parsing
`given>X … family>Y` and `family>Y … given>X` — with arbitrary whitespace
before each label and around each `>` — both succeed and yield the same
record `{given: X, family: Y}`. -/
theorem C6_author_order (w1 w2 w3 w4 w5 w6 x y t1 t2 : List Nat)
    (hw1 : ∀ b ∈ w1, isWsB b = true) (hw2 : ∀ b ∈ w2, isWsB b = true)
    (hw3 : ∀ b ∈ w3, isWsB b = true) (hw4 : ∀ b ∈ w4, isWsB b = true)
    (hw5 : ∀ b ∈ w5, isWsB b = true) (hw6 : ∀ b ∈ w6, isWsB b = true)
    (hx : x ≠ []) (hy : y ≠ [])
    (hxc : ∀ b ∈ x, b ≠ 44 ∧ b ≠ 46 ∧ b ≠ 92)
    (hyc : ∀ b ∈ y, b ≠ 44 ∧ b ≠ 46 ∧ b ≠ 92)
    (hxh : ∀ b, x.head? = some b → isWsB b = false)
    (hyh : ∀ b, y.head? = some b → isWsB b = false)
    (ht1 : t1 = [44] ∨ t1 = [46])
    (ht2 : t2 = [44] ∨ t2 = [46] ∨ t2 = []) :
    author (w1 ++ givenB ++ w2 ++ [62] ++ w3 ++ x ++ t1 ++
        w4 ++ familyB ++ w5 ++ [62] ++ w6 ++ y ++ t2) = some ([], ⟨x, y⟩) ∧
    author (w1 ++ familyB ++ w2 ++ [62] ++ w3 ++ y ++ t1 ++
        w4 ++ givenB ++ w5 ++ [62] ++ w6 ++ x ++ t2) = some ([], ⟨x, y⟩) := by
  have hend : ∀ z : List Nat, z ≠ [] →
      (∀ b ∈ z, b ≠ 44 ∧ b ≠ 46 ∧ b ≠ 92) → name (z ++ t2) = some ([], z) := by
    intro z hz hzc
    rcases ht2 with rfl | rfl | rfl
    · simpa using name_delim z [44] [] hz hzc (Or.inl rfl)
    · simpa using name_delim z [46] [] hz hzc (Or.inr rfl)
    · simpa using name_end z hz hzc
  constructor
  · have hp2 : author_part (w4 ++ (familyB ++ (w5 ++ (62 :: (w6 ++ (y ++ t2)))))) =
        some ([], AuthorPart.Family y) := by
      have hn := hend y hy hyc
      have hap := author_part_family w4 w5 w6 (y ++ t2) hw4 hw5 hw6
        (fun b hb => hyh b (by rwa [head?_append_left y t2 hy] at hb))
      rw [hn] at hap
      simpa using hap
    have hp1 : author_part (w1 ++ (givenB ++ (w2 ++ (62 :: (w3 ++
          (x ++ (t1 ++ (w4 ++ (familyB ++ (w5 ++ (62 :: (w6 ++ (y ++ t2))))))))))))) =
        some (w4 ++ (familyB ++ (w5 ++ (62 :: (w6 ++ (y ++ t2))))),
          AuthorPart.Given x) := by
      have hn := name_delim x t1
        (w4 ++ (familyB ++ (w5 ++ (62 :: (w6 ++ (y ++ t2)))))) hx hxc ht1
      have hap := author_part_given w1 w2 w3
        (x ++ (t1 ++ (w4 ++ (familyB ++ (w5 ++ (62 :: (w6 ++ (y ++ t2))))))))
        hw1 hw2 hw3
        (fun b hb => hxh b (by rwa [head?_append_left x _ hx] at hb))
      rw [hn] at hap
      simpa using hap
    have hres : author (w1 ++ (givenB ++ (w2 ++ (62 :: (w3 ++
        (x ++ (t1 ++ (w4 ++ (familyB ++ (w5 ++ (62 :: (w6 ++ (y ++ t2))))))))))))) =
        some ([], ⟨x, y⟩) := by
      simp [author, hp1, hp2]
    simpa [List.append_assoc] using hres
  · have hp2 : author_part (w4 ++ (givenB ++ (w5 ++ (62 :: (w6 ++ (x ++ t2)))))) =
        some ([], AuthorPart.Given x) := by
      have hn := hend x hx hxc
      have hap := author_part_given w4 w5 w6 (x ++ t2) hw4 hw5 hw6
        (fun b hb => hxh b (by rwa [head?_append_left x t2 hx] at hb))
      rw [hn] at hap
      simpa using hap
    have hp1 : author_part (w1 ++ (familyB ++ (w2 ++ (62 :: (w3 ++
          (y ++ (t1 ++ (w4 ++ (givenB ++ (w5 ++ (62 :: (w6 ++ (x ++ t2))))))))))))) =
        some (w4 ++ (givenB ++ (w5 ++ (62 :: (w6 ++ (x ++ t2))))),
          AuthorPart.Family y) := by
      have hn := name_delim y t1
        (w4 ++ (givenB ++ (w5 ++ (62 :: (w6 ++ (x ++ t2)))))) hy hyc ht1
      have hap := author_part_family w1 w2 w3
        (y ++ (t1 ++ (w4 ++ (givenB ++ (w5 ++ (62 :: (w6 ++ (x ++ t2))))))))
        hw1 hw2 hw3
        (fun b hb => hyh b (by rwa [head?_append_left y _ hy] at hb))
      rw [hn] at hap
      simpa using hap
    have hres : author (w1 ++ (familyB ++ (w2 ++ (62 :: (w3 ++
        (y ++ (t1 ++ (w4 ++ (givenB ++ (w5 ++ (62 :: (w6 ++ (x ++ t2))))))))))))) =
        some ([], ⟨x, y⟩) := by
      simp [author, hp1, hp2]
    simpa [List.append_assoc] using hres

/-- C6 witness: the amended theorem at X = `A`, Y = `B`, comma terminator
after the first name, a single space before the second label, and no
terminator after the second name. -/
theorem C6_witness :
    author ([] ++ givenB ++ [] ++ [62] ++ [] ++ [65] ++ [44] ++
        [32] ++ familyB ++ [] ++ [62] ++ [] ++ [66] ++ []) =
      some ([], ⟨[65], [66]⟩) ∧
    author ([] ++ familyB ++ [] ++ [62] ++ [] ++ [66] ++ [44] ++
        [32] ++ givenB ++ [] ++ [62] ++ [] ++ [65] ++ []) =
      some ([], ⟨[65], [66]⟩) :=
  C6_author_order [] [] [] [32] [] [] [65] [66] [44] []
    (by decide) (by decide) (by decide) (by decide) (by decide) (by decide)
    (by decide) (by decide) (by decide) (by decide)
    (fun b hb => by cases hb; rfl) (fun b hb => by cases hb; rfl)
    (Or.inl rfl) (Or.inr (Or.inr rfl))

/-- C7: the field-body (`paragraph`) parser never fails; it skips leading
whitespace, and then: when the 4-byte sequence `\par` occurs in the
remainder it returns the bytes before the first occurrence (untrimmed) as
the value and the bytes after the terminator as the remainder; when `\par`
never occurs it returns the whole remainder as value with an empty
remainder. -/
theorem C7_paragraph_contract (input : List Nat) :
    ∃ rem v, paragraph input = some (rem, v) ∧
      ((¬ ∃ p q, space input = p ++ parB ++ q) → v = space input ∧ rem = []) ∧
      ((∃ p q, space input = p ++ parB ++ q) →
        space input = v ++ parB ++ rem ∧
        ∀ p q, space input = p ++ parB ++ q → v.length ≤ p.length) := by
  cases h : takeUntil parB (space input) with
  | none =>
    refine ⟨[], space input, ?_, fun _ => ⟨rfl, rfl⟩, ?_⟩
    · simp [paragraph, h]
    · rintro ⟨p, q, hpq⟩
      exact absurd hpq (takeUntil_none parB _ h p q)
  | some pr =>
    obtain ⟨rem0, pre⟩ := pr
    obtain ⟨hdec, hpf⟩ := takeUntil_some_decomp parB _ _ _ h
    rw [isPrefixOf_iff] at hpf
    obtain ⟨rem1, hrem⟩ := hpf
    have hdrop : rem0.drop 4 = rem1 := by
      rw [← hrem]
      exact List.drop_left parB rem1
    have hsplit : space input = pre ++ parB ++ rem1 := by
      rw [List.append_assoc, hdec, ← hrem]
    refine ⟨rem0.drop 4, pre, ?_, ?_, ?_⟩
    · simp [paragraph, h]
    · intro hno
      exact absurd ⟨pre, rem1, hsplit⟩ hno
    · intro _
      refine ⟨by rw [hdrop]; exact hsplit, ?_⟩
      intro p q hpq
      exact takeUntil_min parB _ _ _ h p q hpq

/-- C8: the top-level abstract parser never fails: on every input it
returns the accumulated parts plus an unconsumed remainder that is a
suffix of the input; when that remainder is nonempty it begins exactly at
an escape character on which the `command` production fails (in
particular, at an unknown command name such as `\foo`), which is where the
zero-or-more loop stopped. -/
theorem C8_abstract_stops_without_failing (input : List Nat) :
    ∃ r ps, abstract input = some (r, ⟨ps⟩) ∧ r <:+ input ∧
      (r = [] ∨ (r.head? = some 92 ∧ command r = none)) := by
  obtain ⟨r, ps, h1, h2, h3⟩ := many0Part_spec (input.length + 1) input (by omega)
  refine ⟨r, ps, by simp [abstract, h1], h2, ?_⟩
  cases r with
  | nil => exact Or.inl rfl
  | cons b rest =>
    right
    obtain ⟨htext, hcmd⟩ := partP_none_split _ h3
    have hb := text_none_head b rest htext
    subst hb
    exact ⟨rfl, hcmd⟩
